import Mathlib

/-!
Verification development for the task-categorizer repository (src/main.py).

Strings are modelled as lists of characters (`Str`), mirroring Python
strings.  Python operations used by the program are embedded as
executable Lean functions over `Str`:
  - `lower`   models `str.lower()` for ASCII letters (the only case
    relevant to the program data);
  - `strip`   models `str.strip()`;
  - `plainSplit` models `str.split(sep)` with a one-character separator;
  - `regexSplit` models `re.split` with the pattern used by the program,
    a comma with the negative lookahead `(?![^(]*\))`;
  - association lists with insertion-order-preserving overwrite model
    Python dicts.
-/

abbrev Str := List Char

/-- Whitespace test matching the characters relevant to `str.strip()`
for this program. -/
def isWS (c : Char) : Bool := c = ' ' || c = '\t' || c = '\n' || c = '\r'

/-- Case table for ASCII letters; models the effect of `str.lower()`. -/
def caseTable : List (Char × Char) :=
  [('A', 'a'), ('B', 'b'), ('C', 'c'), ('D', 'd'), ('E', 'e'), ('F', 'f'),
   ('G', 'g'), ('H', 'h'), ('I', 'i'), ('J', 'j'), ('K', 'k'), ('L', 'l'),
   ('M', 'm'), ('N', 'n'), ('O', 'o'), ('P', 'p'), ('Q', 'q'), ('R', 'r'),
   ('S', 's'), ('T', 't'), ('U', 'u'), ('V', 'v'), ('W', 'w'), ('X', 'x'),
   ('Y', 'y'), ('Z', 'z')]

/-- Lower-case one character (ASCII model of Python lower-casing). -/
def lowerChar (c : Char) : Char :=
  match caseTable.find? (fun p => p.1 = c) with
  | some p => p.2
  | none => c

/-- Models `s.lower()`. -/
def lower (s : Str) : Str := s.map lowerChar

/-- Models `s.strip()`: drop whitespace from both ends. -/
def strip (s : Str) : Str := List.rdropWhile isWS (s.dropWhile isWS)

/-- True when the first parenthesis character occurring in `s` is a
closing one; this is the lookahead `[^(]*\)` of the split pattern. -/
def hasCBO : Str → Bool
  | [] => false
  | c :: rest => if c = ')' then true else if c = '(' then false else hasCBO rest

/-- Prepend a character to the first segment of a split result. -/
def consHead (c : Char) : List Str → List Str
  | [] => [[c]]
  | p :: ps => (c :: p) :: ps

/-- Generic single-character splitter: `del c rest` decides whether the
character `c` (with remaining text `rest`) is a delimiter. -/
def splitBy (del : Char → Str → Bool) : Str → List Str
  | [] => [[]]
  | c :: rest =>
    if del c rest then [] :: splitBy del rest else consHead c (splitBy del rest)

/-- Models the regex split of src/main.py line 135: a comma with the
negative lookahead described in the section comment above. -/
def regexSplit : Str → List Str :=
  splitBy (fun c rest => c = ',' && !hasCBO rest)

/-- Models `s.split(',')`. -/
def plainSplit : Str → List Str :=
  splitBy (fun c _ => c = ',')

/-- Models the task-list tokenization of src/main.py lines 195-196:
regex split, strip each segment, drop empty segments.  This is the
`split_top_level` contract of the specification. -/
def split_top_level (s : Str) : List Str :=
  ((regexSplit s).map strip).filter (fun t => decide (t ≠ []))

/-- Models `s.find(c)` restricted to a successful result: index of the
first occurrence, `none` when absent (Python returns -1). -/
def findChar (c : Char) (s : Str) : Option Nat := s.findIdx? (fun x => x = c)

/-- Models the Python slice `s[i:j]` for natural indices. -/
def pySlice (s : Str) (i j : Nat) : Str := (s.drop i).take (j - i)

/-- The parenthetical sub-task candidates of one segment, given the
index `st` of the first opening and `en` of the closing parenthesis:
`[x.strip() for x in part[st+1:en].strip().split(',') if x.strip()]`. -/
def parenItems (part : Str) (st en : Nat) : List Str :=
  ((plainSplit (strip (pySlice part (st + 1) en))).map strip).filter
    (fun x => decide (x ≠ []))

/-- The base task of one segment:
`part[:st].strip() or part[en+1:].strip()`. -/
def baseOf (part : Str) (st en : Nat) : Str :=
  if strip (part.take st) ≠ [] then strip (part.take st)
  else strip (part.drop (en + 1))

/-- One iteration of the `for part in parts` loop of `extract_sub_tasks`. -/
def processPart (acc : List Str) (part0 : Str) : List Str :=
  if strip part0 = [] then acc
  else
    match findChar '(' (strip part0), findChar ')' (strip part0) with
    | some st, some en =>
      if st < en then
        if baseOf (strip part0) st en ≠ [] ∧
            baseOf (strip part0) st en ∉ acc ++ parenItems (strip part0) st en
        then (acc ++ parenItems (strip part0) st en) ++ [baseOf (strip part0) st en]
        else acc ++ parenItems (strip part0) st en
      else if strip part0 ∉ acc then acc ++ [strip part0] else acc
    | _, _ => if strip part0 ∉ acc then acc ++ [strip part0] else acc

/-- First-seen-order deduplication, models `list(dict.fromkeys(l))`. -/
def dedupGo (seen : List Str) : List Str → List Str
  | [] => []
  | x :: xs => if x ∈ seen then dedupGo seen xs else x :: dedupGo (x :: seen) xs

def dedupFirst (l : List Str) : List Str := dedupGo [] l

/-- Models `extract_sub_tasks` (src/main.py lines 126-156). -/
def extract_sub_tasks (task_str : Str) : List Str :=
  if task_str = [] then []
  else dedupFirst ((regexSplit (strip (lower task_str))).foldl processPart [])

/-!
Similarity ratio (difflib.SequenceMatcher with no junk, as used at
src/main.py lines 163-164).

`SequenceMatcher.ratio` is `2*M/T` where `T` is the combined length of
the two strings and `M` the total size of the matching blocks found by
recursively locating the longest matching block (for equal sizes the
one with the smallest end position in `a`, then in `b`, which is the
block difflib finds with its strictly-greater update rule while it
scans positions in increasing order).
-/

/-- Length of the longest common prefix of two strings. -/
def commonRun : Str → Str → Nat
  | a :: as, b :: bs => if a = b then commonRun as bs + 1 else 0
  | _, _ => 0

/-- Length of the longest common block of `a` and `b` ending exactly at
index `i` of `a` and index `j` of `b` (inclusive). -/
def endLen (a b : Str) (i j : Nat) : Nat :=
  commonRun ((a.take (i + 1)).reverse) ((b.take (j + 1)).reverse)

/-- One update step of the longest-match scan: replace the current best
`(i, j, size)` only on strictly larger size, as difflib does. -/
def bestEndStep (a b : Str) (i : Nat) (best : Nat × Nat × Nat) (j : Nat) :
    Nat × Nat × Nat :=
  if best.2.2 < endLen a b i j then (i, j, endLen a b i j) else best

/-- The end position and size of the longest matching block of `a` and
`b` (ties resolved towards the smallest `i`, then the smallest `j`). -/
def bestEnd (a b : Str) : Nat × Nat × Nat :=
  (List.range a.length).foldl
    (fun best i => (List.range b.length).foldl (bestEndStep a b i) best)
    (0, 0, 0)

/-- Total size of all matching blocks, fuelled recursion.  The fuel
only serves the termination checker: each recursive call strictly
decreases `a.length + b.length`, so fuel `a.length + b.length` is
always sufficient (see `matchTotal`). -/
def matchTotalF : Nat → Str → Str → Nat
  | 0, _, _ => 0
  | fuel + 1, a, b =>
    if (bestEnd a b).2.2 = 0 then 0
    else
      (bestEnd a b).2.2 +
        matchTotalF fuel (a.take ((bestEnd a b).1 + 1 - (bestEnd a b).2.2))
          (b.take ((bestEnd a b).2.1 + 1 - (bestEnd a b).2.2)) +
        matchTotalF fuel (a.drop ((bestEnd a b).1 + 1))
          (b.drop ((bestEnd a b).2.1 + 1))

/-- Total size `M` of the matching blocks of `a` and `b`. -/
def matchTotal (a b : Str) : Nat := matchTotalF (a.length + b.length) a b

/-- Models `SequenceMatcher(None, a, b).ratio()`, as a rational. -/
def ratio (a b : Str) : ℚ :=
  if a.length + b.length = 0 then 1
  else mkRat (2 * matchTotal a b) (a.length + b.length)

/-- The scoring key of the `max` call at src/main.py line 163:
`SequenceMatcher(None, nl, x.lower()).ratio() if x else 0`. -/
def fcmKey (nl : Str) (x : Str) : ℚ :=
  if x = [] then 0 else ratio nl (lower x)

/-- Models `max(options, key=...)`: scan the list, keep the current
best on ties (Python max keeps the first maximum). -/
def pickBest (key : Str → ℚ) (b : Str) : List Str → Str
  | [] => b
  | x :: xs => pickBest key (if key b < key x then x else b) xs

/-- Models `find_closest_match` (src/main.py lines 159-164). -/
def find_closest_match (task_name : Str) (options : List Str)
    (threshold : ℚ) : Option Str :=
  if task_name = [] then none
  else
    match options with
    | [] => none
    | o :: os =>
      if threshold ≤
          ratio (lower task_name) (lower (pickBest (fcmKey (lower task_name)) o os))
      then some (pickBest (fcmKey (lower task_name)) o os)
      else none

/-!
Mapping tables (src/main.py lines 166-212) and the per-task driver
(lines 253-315).  Python dicts are modelled as association lists with
insertion order preserved: overwriting an existing key keeps its
position, a new key is appended.
-/

/-- One `(category, priority, tag)` tuple. -/
abbrev Entry := Str × Str × Str

/-- Models `d[k] = v` on a Python dict. -/
def insertA (m : List (Str × Entry)) (k : Str) (v : Entry) :
    List (Str × Entry) :=
  if m.any (fun p => p.1 = k) then
    m.map (fun p => if p.1 = k then (k, v) else p)
  else m ++ [(k, v)]

/-- Models `d[k]` / `k in d` on a Python dict. -/
def lookupA (m : List (Str × Entry)) (k : Str) : Option Entry :=
  match m.find? (fun p => p.1 = k) with
  | some p => some p.2
  | none => none

/-- Models `d.keys()` (iteration order). -/
def keysA (m : List (Str × Entry)) : List Str := m.map (fun p => p.1)

/-- One taxonomy page: category name, tag, and the rich-text runs of
the three priority columns (src/main.py lines 177-193). -/
structure RichPage where
  categoryName : Str
  tag : Str
  highRuns : List Str
  mediumRuns : List Str
  lowRuns : List Str

/-- Models `" ".join(xs)`. -/
def joinSpace : List Str → Str
  | [] => []
  | [x] => x
  | x :: xs => x ++ ' ' :: joinSpace xs

/-- Models src/main.py line 193: concatenate the non-empty run texts,
each stripped, with single spaces. -/
def concatRuns (runs : List Str) : Str :=
  joinSpace ((runs.filter (fun r => decide (r ≠ []))).map strip)

/-- Models the body of the per-column loop, src/main.py lines 189-205:
tokenize the column into tasks, insert each task key into the task
mapping and its extracted sub-tasks into the sub-task mapping. -/
def processColumn (tms : List (Str × Entry) × List (Str × Entry))
    (cat tag pri : Str) (runs : List Str) :
    List (Str × Entry) × List (Str × Entry) :=
  if runs = [] then tms
  else
    (split_top_level (concatRuns runs)).foldl
      (fun tms task =>
        if task ≠ [] then
          (insertA tms.1 (strip (lower task)) (cat, pri, tag),
           (extract_sub_tasks task).foldl
             (fun sm st =>
               if st ≠ [] ∧ st ≠ strip (lower task) then
                 insertA sm st (cat, pri, tag)
               else sm)
             tms.2)
        else tms)
      tms

/-- Models one iteration of the page loop, src/main.py lines 177-205. -/
def processPage (tms : List (Str × Entry) × List (Str × Entry))
    (page : RichPage) : List (Str × Entry) × List (Str × Entry) :=
  let tms1 := processColumn tms page.categoryName page.tag "High".data page.highRuns
  let tms2 := processColumn tms1 page.categoryName page.tag "Medium".data page.mediumRuns
  processColumn tms2 page.categoryName page.tag "Low".data page.lowRuns

/-- Models the mapping build over all taxonomy pages:
`(task_mapping, sub_task_mapping)`. -/
def buildMappings (pages : List RichPage) :
    List (Str × Entry) × List (Str × Entry) :=
  pages.foldl processPage ([], [])

/-- Models the resolution logic of the per-task driver, src/main.py
lines 261-265 and 289-290: exact lookup of the lower-cased name in the
task mapping, otherwise fuzzy matching over the sub-task mapping keys. -/
def resolve (task_name : Str) (tm sm : List (Str × Entry))
    (threshold : ℚ) : Option Entry :=
  match lookupA tm (lower task_name) with
  | some e => some e
  | none =>
    match find_closest_match task_name (keysA sm) threshold with
    | some k => lookupA sm k
    | none => none

/-- The current select values of one daily-task record (empty string
when unset, as returned by `get_property`). -/
structure DailyFields where
  currentCategory : Str
  currentPriority : Str
  currentTag : Str

def catCol : Str := "Category Name".data

def priCol : Str := "Priority".data

def tagCol : Str := "Tag".data

/-- Models the construction of `update_properties` (src/main.py lines
272-281 / 297-306): a field is added only when its current value is
unset, the resolved value is a permitted option, and the column exists. -/
def update_properties (cur : DailyFields) (e : Entry)
    (categoryOptions priorityOptions tagOptions : List Str)
    (columnNames : List Str) : List (Str × Str) :=
  (if cur.currentCategory = [] ∧ e.1 ∈ categoryOptions ∧ catCol ∈ columnNames
   then [(catCol, e.1)] else []) ++
  (if cur.currentPriority = [] ∧ e.2.1 ∈ priorityOptions ∧ priCol ∈ columnNames
   then [(priCol, e.2.1)] else []) ++
  (if cur.currentTag = [] ∧ e.2.2 ∈ tagOptions ∧ tagCol ∈ columnNames
   then [(tagCol, e.2.2)] else [])

/-- The parenthesis test of src/main.py line 145:
`start != -1 and end != -1 and start < end`. -/
def parenValid (t : Str) : Bool :=
  match findChar '(' t, findChar ')' t with
  | some st, some en => decide (st < en)
  | _, _ => false

/-- A segment contains a valid parenthesis pair: some opening
parenthesis is followed by a later closing one. -/
def hasValidPair (s : Str) : Bool :=
  match findChar '(' s with
  | some i => ((s.drop (i + 1)).findIdx? (fun x => x = ')')).isSome
  | none => false

/-- Sample entry used by concrete witnesses. -/
def eRead : Entry := ("reading".data, "High".data, "growth".data)

/-- Second sample entry used by concrete witnesses. -/
def eWrite : Entry := ("writing".data, "Low".data, "craft".data)

/-- Sample taxonomy page used by concrete witnesses. -/
def pages0 : List RichPage :=
  [⟨"Reading".data, "Growth".data, ["Read (Book, Article)".data], [], []⟩]

theorem lowerChar_idem (c : Char) : lowerChar (lowerChar c) = lowerChar c := by
  unfold lowerChar
  cases h : caseTable.find? (fun p => p.1 = c) with
  | none => simp [h]
  | some p =>
    have hmem : p ∈ caseTable := List.mem_of_find?_eq_some h
    have hnone : caseTable.find? (fun q => q.1 = p.2) = none := by
      rw [List.find?_eq_none]
      intro q hq
      have : ∀ q ∈ caseTable, ∀ r ∈ caseTable, ¬ (q.1 = r.2) := by decide
      simpa using this q hq p hmem
    simp [hnone]

theorem isWS_lowerChar (c : Char) : isWS (lowerChar c) = isWS c := by
  unfold lowerChar
  cases h : caseTable.find? (fun p => p.1 = c) with
  | none => rfl
  | some p =>
    have hmem : p ∈ caseTable := List.mem_of_find?_eq_some h
    have hc : p.1 = c := by simpa using List.find?_some h
    have h1 : ∀ q ∈ caseTable, isWS q.1 = false ∧ isWS q.2 = false := by decide
    rw [(h1 p hmem).2, ← hc, (h1 p hmem).1]

theorem lower_idem (s : Str) : lower (lower s) = lower s := by
  simp only [lower, List.map_map]
  have : lowerChar ∘ lowerChar = lowerChar := funext lowerChar_idem
  rw [this]

theorem lower_length (s : Str) : (lower s).length = s.length := by
  simp [lower]

theorem lower_eq_nil_iff (s : Str) : lower s = [] ↔ s = [] := by
  simp [lower]

theorem lower_eq_self_of_mem (s : Str) (h : ∀ c ∈ s, lowerChar c = c) :
    lower s = s := by
  induction s with
  | nil => rfl
  | cons c cs ih =>
    simp only [lower, List.map_cons]
    rw [h c (by simp)]
    have := ih (fun d hd => h d (by simp [hd]))
    simp only [lower] at this
    rw [this]

theorem mem_lower_fixed (s : Str) (c : Char) (h : c ∈ lower s) :
    lowerChar c = c := by
  simp only [lower, List.mem_map] at h
  obtain ⟨d, _, rfl⟩ := h
  exact lowerChar_idem d

theorem strip_sublist (s : Str) : List.Sublist (strip s) s := by
  have h1 : List.IsPrefix (List.rdropWhile isWS (s.dropWhile isWS)) (s.dropWhile isWS) :=
    List.rdropWhile_prefix _ _
  have h2 : List.IsSuffix (s.dropWhile isWS) s := List.dropWhile_suffix _
  exact (h1.sublist).trans h2.sublist

theorem mem_strip (s : Str) (c : Char) (h : c ∈ strip s) : c ∈ s :=
  (strip_sublist s).subset h

theorem dropWhile_rdropWhile_eq_self (p : Char → Bool) (l : Str)
    (h : l.dropWhile p = l) :
    (List.rdropWhile p l).dropWhile p = List.rdropWhile p l := by
  rcases hE : List.rdropWhile p l with _ | ⟨c, cs⟩
  · rfl
  · obtain ⟨r, hr⟩ := List.rdropWhile_prefix p l
    rw [hE] at hr
    have hl : l = c :: (cs ++ r) := by rw [← hr]; simp
    subst hl
    have hnp : ¬ p c := by
      intro hp
      rw [List.dropWhile_cons, if_pos hp] at h
      have := (List.dropWhile_sublist (l := cs ++ r) p).length_le
      rw [h] at this
      simp at this
    simp [List.dropWhile_cons, hnp]

theorem strip_idem (s : Str) : strip (strip s) = strip s := by
  unfold strip
  rw [dropWhile_rdropWhile_eq_self _ _ (List.dropWhile_idempotent _ _),
    List.rdropWhile_idempotent]

theorem strip_lower_comm (s : Str) : strip (lower s) = lower (strip s) := by
  unfold strip lower
  have hws : (isWS ∘ lowerChar) = isWS := funext isWS_lowerChar
  rw [List.dropWhile_map, hws]
  unfold List.rdropWhile
  rw [← List.map_reverse, List.dropWhile_map, hws, ← List.map_reverse]

theorem strip_nil : strip [] = [] := rfl

/-!
Tokenizer (src/main.py lines 134-136 and 195-196).

The program splits task strings with `re.split` on the pattern
comma followed by the negative lookahead `(?![^(]*\))`: a comma is a
delimiter exactly when the remaining text does NOT contain a closing
parenthesis before any opening parenthesis.
-/

theorem splitBy_ne_nil (del : Char → Str → Bool) (s : Str) :
    splitBy del s ≠ [] := by
  cases s with
  | nil => simp [splitBy]
  | cons c rest =>
    simp only [splitBy]
    split
    · simp
    · cases splitBy del rest <;> simp [consHead]

theorem mem_mem_splitBy (del : Char → Str → Bool) (s : Str) :
    ∀ t ∈ splitBy del s, ∀ c ∈ t, c ∈ s := by
  induction s with
  | nil =>
    intro t ht c hc
    simp [splitBy] at ht
    subst ht
    simp at hc
  | cons a rest ih =>
    intro t ht c hc
    simp only [splitBy] at ht
    by_cases hd : del a rest
    · rw [if_pos hd] at ht
      rcases List.mem_cons.mp ht with ht | ht
      · subst ht; simp at hc
      · exact List.mem_cons_of_mem a (ih t ht c hc)
    · rw [if_neg hd] at ht
      rcases hsp : splitBy del rest with _ | ⟨p, ps⟩
      · exact absurd hsp (splitBy_ne_nil del rest)
      · rw [hsp] at ht
        simp only [consHead] at ht
        rcases List.mem_cons.mp ht with ht | ht
        · subst ht
          rcases List.mem_cons.mp hc with hc | hc
          · simp [hc]
          · exact List.mem_cons_of_mem a
              (ih p (by rw [hsp]; exact List.mem_cons_self p ps) c hc)
        · exact List.mem_cons_of_mem a
            (ih t (by rw [hsp]; exact List.mem_cons_of_mem p ht) c hc)

theorem hasCBO_eq_false_of_no_close (s : Str) (h : ')' ∉ s) :
    hasCBO s = false := by
  induction s with
  | nil => rfl
  | cons c rest ih =>
    simp only [hasCBO]
    have hc : ¬ (c = ')') := fun hc => h (by simp [hc])
    rw [if_neg hc]
    split
    · rfl
    · exact ih (fun hm => h (List.mem_cons_of_mem c hm))

theorem regexSplit_eq_plainSplit (s : Str) (h : ')' ∉ s) :
    regexSplit s = plainSplit s := by
  induction s with
  | nil => rfl
  | cons c rest ih =>
    have hrest : ')' ∉ rest := fun hm => h (List.mem_cons_of_mem c hm)
    have ih' := ih hrest
    simp only [regexSplit, plainSplit, splitBy] at ih' ⊢
    simp [hasCBO_eq_false_of_no_close rest hrest, ih']

/-!
Sub-task extraction (src/main.py lines 126-156, `extract_sub_tasks`).
-/

theorem pickBest_spec (key : Str → ℚ) :
    ∀ (l : List Str) (b : Str),
      pickBest key b l ∈ b :: l ∧
        ∀ x ∈ b :: l, key x ≤ key (pickBest key b l) := by
  intro l
  induction l with
  | nil =>
    intro b
    refine ⟨by simp [pickBest], ?_⟩
    intro x hx
    rcases List.mem_cons.mp hx with hx | hx
    · subst hx; simp [pickBest]
    · simp at hx
  | cons x xs ih =>
    intro b
    have hc : pickBest key b (x :: xs) =
        pickBest key (if key b < key x then x else b) xs := rfl
    obtain ⟨hmem, hle⟩ := ih (if key b < key x then x else b)
    constructor
    · rw [hc]
      rcases List.mem_cons.mp hmem with h | h
      · rw [h]
        split
        · exact List.mem_cons_of_mem b (List.mem_cons_self x xs)
        · exact List.mem_cons_self b (x :: xs)
      · exact List.mem_cons_of_mem b (List.mem_cons_of_mem x h)
    · intro y hy
      rw [hc]
      have hbc : key b ≤ key (if key b < key x then x else b) := by
        split
        · next h => exact le_of_lt h
        · exact le_refl _
      have hxc : key x ≤ key (if key b < key x then x else b) := by
        split
        · exact le_refl _
        · next h => exact le_of_not_lt h
      have hcle := hle _ (List.mem_cons_self _ _)
      rcases List.mem_cons.mp hy with hy | hy
      · subst hy; exact le_trans hbc hcle
      · rcases List.mem_cons.mp hy with hy | hy
        · subst hy; exact le_trans hxc hcle
        · exact hle y (List.mem_cons_of_mem _ hy)

theorem foldl_self {α β : Type} (l : List β) (init : α) :
    l.foldl (fun b _ => b) init = init := by
  induction l generalizing init with
  | nil => rfl
  | cons x xs ih => exact ih init

theorem bestEnd_nil_right (a : Str) : bestEnd a [] = (0, 0, 0) := by
  unfold bestEnd
  simp [foldl_self]

theorem matchTotal_nil_right (a : Str) : matchTotal a [] = 0 := by
  unfold matchTotal
  cases a with
  | nil => rfl
  | cons c cs =>
    simp only [List.length_cons, List.length_nil, Nat.add_zero]
    simp [matchTotalF, bestEnd_nil_right]

theorem ratio_nil_right (a : Str) (h : a ≠ []) : ratio a [] = 0 := by
  have hl : a.length + ([] : Str).length ≠ 0 := by
    simp only [List.length_nil, Nat.add_zero]
    exact fun hx => h (List.length_eq_zero.mp hx)
  unfold ratio
  rw [if_neg hl, matchTotal_nil_right]
  norm_num

theorem fcmKey_eq_ratio (nl x : Str) (h : nl ≠ []) :
    fcmKey nl x = ratio nl (lower x) := by
  unfold fcmKey
  split
  · next hx =>
    subst hx
    show (0 : ℚ) = ratio nl (lower [])
    rw [show lower [] = [] from rfl, ratio_nil_right nl h]
  · rfl

theorem fcm_congr_lower (n1 n2 : Str) (options : List Str) (threshold : ℚ)
    (h : lower n1 = lower n2) :
    find_closest_match n1 options threshold =
      find_closest_match n2 options threshold := by
  have he : (n1 = []) = (n2 = []) := by
    apply propext
    rw [← lower_eq_nil_iff n1, ← lower_eq_nil_iff n2, h]
  unfold find_closest_match
  simp only [he, h]

theorem fcm_cons (task_name o : Str) (os : List Str) (threshold : ℚ)
    (hn : task_name ≠ []) :
    find_closest_match task_name (o :: os) threshold =
      if threshold ≤
          ratio (lower task_name) (lower (pickBest (fcmKey (lower task_name)) o os))
      then some (pickBest (fcmKey (lower task_name)) o os)
      else none := by
  unfold find_closest_match
  rw [if_neg hn]

theorem mem_dedupGo : ∀ (l seen : List Str), ∀ x ∈ dedupGo seen l, x ∈ l := by
  intro l
  induction l with
  | nil => intro seen x hx; simp [dedupGo] at hx
  | cons y ys ih =>
    intro seen x hx
    simp only [dedupGo] at hx
    split at hx
    · exact List.mem_cons_of_mem y (ih seen x hx)
    · rcases List.mem_cons.mp hx with hx | hx
      · simp [hx]
      · exact List.mem_cons_of_mem y (ih (y :: seen) x hx)

theorem dedupGo_append_mem (x : Str) :
    ∀ (l seen : List Str), x ∈ l ∨ x ∈ seen →
      dedupGo seen (l ++ [x]) = dedupGo seen l := by
  intro l
  induction l with
  | nil =>
    intro seen h
    rcases h with h | h
    · simp at h
    · simp [dedupGo, h]
  | cons y ys ih =>
    intro seen h
    simp only [List.cons_append, dedupGo]
    split
    · next hy =>
      apply ih
      rcases h with h | h
      · rcases List.mem_cons.mp h with h | h
        · exact Or.inr (h ▸ hy)
        · exact Or.inl h
      · exact Or.inr h
    · congr 1
      apply ih
      rcases h with h | h
      · rcases List.mem_cons.mp h with h | h
        · exact Or.inr (by simp [h])
        · exact Or.inl h
      · exact Or.inr (List.mem_cons_of_mem y h)

theorem findChar_some_ne_nil (c : Char) (s : Str) (i : Nat)
    (h : findChar c s = some i) : s ≠ [] := by
  intro hs
  subst hs
  simp [findChar] at h

theorem mem_split_top_level (s t : Str) (h : t ∈ split_top_level s) :
    strip t = t ∧ t ≠ [] ∧ ∀ c ∈ t, c ∈ s := by
  unfold split_top_level at h
  have hf := List.of_mem_filter h
  have hm := List.mem_of_mem_filter h
  rcases List.mem_map.mp hm with ⟨u, hu, rfl⟩
  refine ⟨strip_idem u, by simpa using hf, ?_⟩
  intro c hc
  exact mem_mem_splitBy _ s u hu c (mem_strip u c hc)

theorem mem_parenItems (part : Str) (st en : Nat) (x : Str)
    (h : x ∈ parenItems part st en) :
    (∀ c ∈ x, c ∈ part) ∧ strip x = x ∧ x ≠ [] := by
  unfold parenItems at h
  have hf := List.of_mem_filter h
  have hm := List.mem_of_mem_filter h
  rcases List.mem_map.mp hm with ⟨u, hu, rfl⟩
  refine ⟨?_, strip_idem u, by simpa using hf⟩
  intro c hc
  have hc1 : c ∈ u := mem_strip u c hc
  have hc2 : c ∈ strip (pySlice part (st + 1) en) :=
    mem_mem_splitBy _ _ u hu c hc1
  have hc3 : c ∈ pySlice part (st + 1) en := mem_strip _ c hc2
  unfold pySlice at hc3
  exact List.mem_of_mem_drop (List.mem_of_mem_take hc3)

theorem baseOf_chars (part : Str) (st en : Nat) (c : Char)
    (h : c ∈ baseOf part st en) : c ∈ part := by
  unfold baseOf at h
  split at h
  · exact List.mem_of_mem_take (mem_strip _ c h)
  · exact List.mem_of_mem_drop (mem_strip _ c h)

theorem baseOf_strip (part : Str) (st en : Nat) :
    strip (baseOf part st en) = baseOf part st en := by
  unfold baseOf
  split
  · exact strip_idem _
  · exact strip_idem _

theorem processPart_mem (acc : List Str) (part0 : Str) :
    ∀ x ∈ processPart acc part0,
      x ∈ acc ∨ ((∀ c ∈ x, c ∈ part0) ∧ strip x = x ∧ x ≠ []) := by
  intro x hx
  unfold processPart at hx
  by_cases hp : strip part0 = []
  · rw [if_pos hp] at hx
    exact Or.inl hx
  rw [if_neg hp] at hx
  have hchars : ∀ c ∈ strip part0, c ∈ part0 := fun c hc => mem_strip part0 c hc
  have hstandalone :
      x ∈ (if strip part0 ∉ acc then acc ++ [strip part0] else acc) →
        x ∈ acc ∨ ((∀ c ∈ x, c ∈ part0) ∧ strip x = x ∧ x ≠ []) := by
    intro hx'
    split at hx'
    · rcases List.mem_append.mp hx' with h | h
      · exact Or.inl h
      · have hxe : x = strip part0 := by simpa using h
        subst hxe
        exact Or.inr ⟨hchars, strip_idem part0, hp⟩
    · exact Or.inl hx'
  have hItems : ∀ st en,
      x ∈ acc ++ parenItems (strip part0) st en →
        x ∈ acc ∨ ((∀ c ∈ x, c ∈ part0) ∧ strip x = x ∧ x ≠ []) := by
    intro st en hx'
    rcases List.mem_append.mp hx' with h | h
    · exact Or.inl h
    · obtain ⟨hc, hs, hn⟩ := mem_parenItems (strip part0) st en x h
      exact Or.inr ⟨fun c hcc => mem_strip part0 c (hc c hcc), hs, hn⟩
  split at hx
  next st en heq1 heq2 =>
    by_cases hlt : st < en
    · rw [if_pos hlt] at hx
      split at hx
      · next hbase =>
        rcases List.mem_append.mp hx with h | h
        · exact hItems st en h
        · have hxe : x = baseOf (strip part0) st en := by simpa using h
          subst hxe
          exact Or.inr ⟨fun c hcc => mem_strip part0 c (baseOf_chars _ st en c hcc),
            baseOf_strip _ st en, hbase.1⟩
      · exact hItems st en hx
    · rw [if_neg hlt] at hx
      exact hstandalone hx
  all_goals exact hstandalone hx

theorem foldl_preserve {α β : Type} (P : α → Prop) (f : α → β → α)
    (l : List β) (init : α) (h0 : P init)
    (hstep : ∀ a, ∀ b ∈ l, P a → P (f a b)) : P (l.foldl f init) := by
  induction l generalizing init with
  | nil => exact h0
  | cons x xs ih =>
    exact ih (f init x) (hstep init x (by simp) h0)
      (fun a b hb ha => hstep a b (by simp [hb]) ha)

theorem extract_sub_tasks_spec (s : Str) :
    ∀ x ∈ extract_sub_tasks s,
      (∀ c ∈ x, lowerChar c = c) ∧ strip x = x ∧ x ≠ [] := by
  intro x hx
  unfold extract_sub_tasks at hx
  split at hx
  · simp at hx
  · have hx' := mem_dedupGo _ _ x hx
    have hfold :
        ∀ y ∈ (regexSplit (strip (lower s))).foldl processPart [],
          (∀ c ∈ y, c ∈ strip (lower s)) ∧ strip y = y ∧ y ≠ [] := by
      apply foldl_preserve
        (P := fun acc => ∀ y ∈ acc,
          (∀ c ∈ y, c ∈ strip (lower s)) ∧ strip y = y ∧ y ≠ [])
      · intro y hy; simp at hy
      · intro acc part0 hpart hacc y hy
        rcases processPart_mem acc part0 y hy with h | ⟨hc, hs, hn⟩
        · exact hacc y h
        · exact ⟨fun c hcc =>
            mem_mem_splitBy _ _ part0 hpart c (hc c hcc), hs, hn⟩
    obtain ⟨hc, hs, hn⟩ := hfold x hx'
    refine ⟨?_, hs, hn⟩
    intro c hcc
    exact mem_lower_fixed s c (mem_strip (lower s) c (hc c hcc))

theorem keysA_insertA (m : List (Str × Entry)) (k : Str) (v : Entry) :
    ∀ x ∈ keysA (insertA m k v), x ∈ keysA m ∨ x = k := by
  intro x hx
  unfold insertA at hx
  split at hx
  · unfold keysA at hx ⊢
    rw [List.map_map] at hx
    rcases List.mem_map.mp hx with ⟨p, hp, hpe⟩
    by_cases hk : p.1 = k
    · right
      simp only [Function.comp, if_pos hk] at hpe
      exact hpe.symm
    · left
      simp only [Function.comp, if_neg hk] at hpe
      exact hpe ▸ List.mem_map.mpr ⟨p, hp, rfl⟩
  · unfold keysA at hx ⊢
    rw [List.map_append] at hx
    rcases List.mem_append.mp hx with h | h
    · exact Or.inl h
    · right; simpa using h

theorem find?_overwrite (k : Str) (v : Entry) :
    ∀ m : List (Str × Entry),
      (m.map (fun p => if p.1 = k then (k, v) else p)).find?
          (fun p => decide (p.1 = k)) =
        if m.any (fun p => decide (p.1 = k)) then some (k, v) else none := by
  intro m
  induction m with
  | nil => simp
  | cons p ps ih =>
    by_cases hp : p.1 = k
    · simp [List.find?_cons, hp, ih]
    · have hd : decide (p.1 = k) = false := by simp [hp]
      simp only [List.map_cons, if_neg hp, List.find?_cons, hd, List.any_cons,
        Bool.false_or]
      exact ih

theorem lookupA_insertA (m : List (Str × Entry)) (k : Str) (v : Entry) :
    lookupA (insertA m k v) k = some v := by
  unfold insertA
  split
  · next hany =>
    unfold lookupA
    rw [find?_overwrite k v m, if_pos hany]
  · next hany =>
    unfold lookupA
    have hnone : m.find? (fun p => decide (p.1 = k)) = none := by
      rw [List.find?_eq_none]
      intro p hp hpk
      exact hany (List.any_eq_true.mpr ⟨p, hp, hpk⟩)
    rw [List.find?_append, hnone]
    simp

/-- C1: for every task name whose normalized (lower-cased) form is a key
of the task mapping, resolution returns the entry of that key
immediately;
the fuzzy-similarity step against the sub-task mapping is never
attempted — the result does not depend on the sub-task mapping at all,
even when some sub-task key would score a higher similarity ratio. -/
theorem C1_exact_match_short_circuits (task_name : Str)
    (tm sm : List (Str × Entry)) (threshold : ℚ) (e : Entry)
    (h : lookupA tm (lower task_name) = some e) :
    resolve task_name tm sm threshold = some e := by
  unfold resolve
  rw [h]

theorem C1_witness :
    lookupA [("book".data, eRead)] (lower "Book".data) = some eRead ∧
    resolve "Book".data [("book".data, eRead)]
      [("books".data, eWrite)] (mkRat 4 5) = some eRead :=
  ⟨by decide, C1_exact_match_short_circuits "Book".data _ _ _ eRead (by decide)⟩

/-- C8: for an empty task name or an empty candidate set the matcher
returns no match (the guard at src/main.py line 160 fires before any
similarity ratio is computed); the function is total, so no error is
raised. -/
theorem C8_empty_inputs_no_match (task_name : Str) (options : List Str)
    (threshold : ℚ) (h : task_name = [] ∨ options = []) :
    find_closest_match task_name options threshold = none := by
  rcases h with h | h
  · unfold find_closest_match
    rw [if_pos h]
  · subst h
    unfold find_closest_match
    split <;> rfl

theorem C8_witness :
    (("".data : Str) = [] ∨ (["book".data] : List Str) = []) ∧
    find_closest_match "".data ["book".data] (mkRat 4 5) = none ∧
    find_closest_match "book".data [] (mkRat 4 5) = none :=
  ⟨Or.inl rfl,
   C8_empty_inputs_no_match "".data ["book".data] (mkRat 4 5) (Or.inl rfl),
   C8_empty_inputs_no_match "book".data [] (mkRat 4 5) (Or.inr rfl)⟩

/-- C9: the computed update set contains only fields among category,
priority and tag that are currently unset on the record; a field whose
current value is non-empty is never included, regardless of the
resolved entry (src/main.py lines 272-281 and 297-306). -/
theorem C9_update_only_unset (cur : DailyFields) (e : Entry)
    (copts popts topts cols : List Str) (f v : Str)
    (h : (f, v) ∈ update_properties cur e copts popts topts cols) :
    (f = catCol ∧ cur.currentCategory = []) ∨
    (f = priCol ∧ cur.currentPriority = []) ∨
    (f = tagCol ∧ cur.currentTag = []) := by
  unfold update_properties at h
  rcases List.mem_append.mp h with h12 | h3
  · rcases List.mem_append.mp h12 with h1 | h2
    · split at h1
      · next hc =>
        exact Or.inl ⟨congrArg Prod.fst (List.mem_singleton.mp h1), hc.1⟩
      · simp at h1
    · split at h2
      · next hc =>
        exact Or.inr (Or.inl ⟨congrArg Prod.fst (List.mem_singleton.mp h2), hc.1⟩)
      · simp at h2
  · split at h3
    · next hc =>
      exact Or.inr (Or.inr ⟨congrArg Prod.fst (List.mem_singleton.mp h3), hc.1⟩)
    · simp at h3

theorem C9_witness :
    (catCol, "reading".data) ∈
      update_properties ⟨[], "high".data, "growth".data⟩
        ("reading".data, "High".data, "growth".data)
        ["reading".data] ["High".data] ["growth".data]
        [catCol, priCol, tagCol] ∧
    ((catCol = catCol ∧
        (DailyFields.mk [] "high".data "growth".data).currentCategory = []) ∨
     (catCol = priCol ∧
        (DailyFields.mk [] "high".data "growth".data).currentPriority = []) ∨
     (catCol = tagCol ∧
        (DailyFields.mk [] "high".data "growth".data).currentTag = [])) :=
  ⟨by decide,
   C9_update_only_unset ⟨[], "high".data, "growth".data⟩
     ("reading".data, "High".data, "growth".data)
     ["reading".data] ["High".data] ["growth".data]
     [catCol, priCol, tagCol] catCol "reading".data (by decide)⟩

/-- C10: the matcher returns either no match or an element of the
candidate collection; consequently, when called on the keys of the
sub-task mapping a returned match always indexes successfully into the
mapping (the lookup at src/main.py line 290 cannot fail). -/
theorem C10_match_is_member :
    (∀ (task_name : Str) (options : List Str) (threshold : ℚ) (r : Str),
        find_closest_match task_name options threshold = some r →
          r ∈ options) ∧
    (∀ (task_name : Str) (m : List (Str × Entry)) (threshold : ℚ) (r : Str),
        find_closest_match task_name (keysA m) threshold = some r →
          (lookupA m r).isSome = true) := by
  have hmem : ∀ (task_name : Str) (options : List Str) (threshold : ℚ)
      (r : Str), find_closest_match task_name options threshold = some r →
        r ∈ options := by
    intro task_name options threshold r h
    by_cases hn : task_name = []
    · rw [hn] at h
      unfold find_closest_match at h
      simp at h
    · rcases options with _ | ⟨o, os⟩
      · unfold find_closest_match at h
        rw [if_neg hn] at h
        simp at h
      · rw [fcm_cons task_name o os threshold hn] at h
        split at h
        · rw [← Option.some.inj h]
          exact (pickBest_spec (fcmKey (lower task_name)) os o).1
        · simp at h
  refine ⟨hmem, ?_⟩
  intro task_name m threshold r h
  have hr := hmem task_name (keysA m) threshold r h
  unfold keysA at hr
  rcases List.mem_map.mp hr with ⟨p, hp, rfl⟩
  unfold lookupA
  have : (m.find? (fun q => decide (q.1 = p.1))).isSome = true :=
    List.find?_isSome.mpr ⟨p, hp, by simp⟩
  rcases hf : m.find? (fun q => decide (q.1 = p.1)) with _ | q
  · rw [hf] at this
    simp at this
  · rw [hf]
    simp

theorem C10_witness :
    find_closest_match "bok".data (keysA [("book".data, eRead)]) (mkRat 4 5) =
      some "book".data ∧
    "book".data ∈ keysA [("book".data, eRead)] ∧
    (lookupA [("book".data, eRead)] "book".data).isSome = true :=
  ⟨by decide,
   C10_match_is_member.1 "bok".data (keysA [("book".data, eRead)]) (mkRat 4 5)
     "book".data (by decide),
   C10_match_is_member.2 "bok".data [("book".data, eRead)] (mkRat 4 5)
     "book".data (by decide)⟩

/-- C2: for a non-empty task name and a non-empty candidate list the
matcher selects the candidate with the maximum sequence-matcher ratio
against the (lower-cased) name and returns it exactly when that ratio
is at least the threshold (so a ratio equal to the threshold, such as
exactly 0.8, is accepted); when every candidate scores strictly below
the threshold it returns no match.  Ties keep the first maximum in
iteration order. -/
theorem C2_threshold_acceptance (task_name : Str) (options : List Str)
    (threshold : ℚ) (hn : task_name ≠ []) (ho : options ≠ []) :
    (∀ r, find_closest_match task_name options threshold = some r →
        r ∈ options ∧ threshold ≤ ratio (lower task_name) (lower r) ∧
        ∀ o ∈ options,
          ratio (lower task_name) (lower o) ≤
            ratio (lower task_name) (lower r)) ∧
    (find_closest_match task_name options threshold = none →
        ∀ o ∈ options, ratio (lower task_name) (lower o) < threshold) := by
  rcases options with _ | ⟨o, os⟩
  · exact absurd rfl ho
  have hnl : lower task_name ≠ [] := by
    intro hl
    exact hn ((lower_eq_nil_iff task_name).mp hl)
  have hkey : ∀ x : Str, fcmKey (lower task_name) x =
      ratio (lower task_name) (lower x) :=
    fun x => fcmKey_eq_ratio (lower task_name) x hnl
  obtain ⟨hmem, hmax⟩ := pickBest_spec (fcmKey (lower task_name)) os o
  rw [fcm_cons task_name o os threshold hn]
  constructor
  · intro r hr
    split at hr
    · next hacc =>
      have hbr : pickBest (fcmKey (lower task_name)) o os = r :=
        Option.some.inj hr
      subst hbr
      refine ⟨hmem, hacc, ?_⟩
      intro x hx
      rw [← hkey x, ← hkey (pickBest (fcmKey (lower task_name)) o os)]
      exact hmax x hx
    · simp at hr
  · intro hr x hx
    split at hr
    · simp at hr
    · next hacc =>
      have h1 : fcmKey (lower task_name) x ≤
          fcmKey (lower task_name) (pickBest (fcmKey (lower task_name)) o os) :=
        hmax x hx
      rw [hkey x, hkey (pickBest (fcmKey (lower task_name)) o os)] at h1
      exact lt_of_le_of_lt h1 (lt_of_not_le hacc)

set_option maxRecDepth 4000 in
theorem C2_witness :
    ("abcde".data ≠ ([] : Str)) ∧ ((["abcdz".data] : List Str) ≠ []) ∧
    ratio (lower "abcde".data) (lower "abcdz".data) = mkRat 4 5 ∧
    find_closest_match "abcde".data ["abcdz".data] (mkRat 4 5) =
      some "abcdz".data ∧
    ("abcdz".data ∈ (["abcdz".data] : List Str) ∧
      mkRat 4 5 ≤ ratio (lower "abcde".data) (lower "abcdz".data) ∧
      ∀ o ∈ (["abcdz".data] : List Str),
        ratio (lower "abcde".data) (lower o) ≤
          ratio (lower "abcde".data) (lower "abcdz".data)) :=
  ⟨by decide, by decide, by decide, by decide,
   (C2_threshold_acceptance "abcde".data ["abcdz".data] (mkRat 4 5)
     (by decide) (by decide)).1 "abcdz".data (by decide)⟩

/-- C7 amended: the matcher lower-cases the incoming task name before
both the exact lookup and the fuzzy comparison, so resolution is
invariant under changes of letter case: any two names with the same
lower-cased form resolve identically.  (The matcher itself performs no
trimming; see the counterexample for whitespace.) -/
theorem C7_case_invariance (n1 n2 : Str) (tm sm : List (Str × Entry))
    (threshold : ℚ) (h : lower n1 = lower n2) :
    resolve n1 tm sm threshold = resolve n2 tm sm threshold := by
  unfold resolve
  rw [h, fcm_congr_lower n1 n2 (keysA sm) threshold h]

/-- C7 counterexample: the claim asserts the matcher trims the incoming
name, which would make resolution invariant under added surrounding
whitespace.  The code only lower-cases (src/main.py lines 162 and 261):
"book" resolves exactly, while "book " (trailing blank) misses the
exact key "book" and falls to the fuzzy step, where an empty sub-task
table yields no match — a different result for a whitespace variant of
the same name. -/
theorem C7_counterexample :
    resolve "book".data [("book".data, eRead)] [] (mkRat 4 5) = some eRead ∧
    resolve "book ".data [("book".data, eRead)] [] (mkRat 4 5) = none := by
  constructor
  · decide
  · decide

theorem C7_witness :
    lower "BOOK".data = lower "Book".data ∧
    resolve "BOOK".data [("book".data, eRead)] [] (mkRat 4 5) =
      resolve "Book".data [("book".data, eRead)] [] (mkRat 4 5) :=
  ⟨by decide,
   C7_case_invariance "BOOK".data "Book".data [("book".data, eRead)] []
     (mkRat 4 5) (by decide)⟩

/-- C3 amended: the top-level split treats a comma as a delimiter
exactly when the remaining text does not contain a closing parenthesis
before any opening parenthesis (the regex lookahead), which for
strings with balanced, non-nested parentheses coincides with the
parenthesis-matching rule of the claim; in particular, for every
string containing no parenthesis character at all the result equals
the string split on every comma, with whitespace trimmed from each
segment and empty segments dropped. -/
theorem C3_no_paren_split (s : Str) (_hp : '(' ∉ s) (hc : ')' ∉ s) :
    split_top_level s =
      ((plainSplit s).map strip).filter (fun t => decide (t ≠ [])) := by
  unfold split_top_level
  rw [regexSplit_eq_plainSplit s hc]

/-- C3 counterexample: the string "a,b)" contains no opening
parenthesis, so under the claim its comma cannot lie between an
unmatched opening parenthesis and a matching closing one and must be a
top-level delimiter, making the segments "a" and "b)".  The code keeps
the comma (the lookahead only checks for a closing parenthesis before
any opening one) and returns the whole string as a single segment. -/
theorem C3_counterexample :
    '(' ∉ "a,b)".data ∧
    split_top_level "a,b)".data = ["a,b)".data] ∧
    (["a,b)".data] : List Str) ≠ ["a".data, "b)".data] := by
  refine ⟨by decide, by decide, by decide⟩

theorem C3_witness :
    '(' ∉ "read, write ,run".data ∧ ')' ∉ "read, write ,run".data ∧
    split_top_level "read, write ,run".data =
      ((plainSplit "read, write ,run".data).map strip).filter
        (fun t => decide (t ≠ [])) ∧
    split_top_level "read, write ,run".data =
      ["read".data, "write".data, "run".data] :=
  ⟨by decide, by decide,
   C3_no_paren_split "read, write ,run".data (by decide) (by decide),
   by decide⟩

/-- C5: a top-level segment with no valid parenthesis pair — no opening
parenthesis, no closing parenthesis, or the first closing parenthesis
not after the first opening one (which covers a closing parenthesis
before any opening one) — is treated as having no parentheses: the
whole segment, lower-cased and trimmed, is the single extracted task.
The function is total, so no error is raised. -/
theorem C5_malformed_fallback (s : Str) (hs : s ≠ [])
    (hone : regexSplit (strip (lower s)) = [strip (lower s)])
    (hne : strip (lower s) ≠ [])
    (hmal : parenValid (strip (lower s)) = false) :
    extract_sub_tasks s = [strip (lower s)] := by
  unfold extract_sub_tasks
  rw [if_neg hs, hone]
  simp only [List.foldl_cons, List.foldl_nil]
  unfold processPart
  rw [strip_idem (lower s)]
  rw [if_neg hne]
  unfold parenValid at hmal
  rcases h1 : findChar '(' (strip (lower s)) with _ | st <;>
    rcases h2 : findChar ')' (strip (lower s)) with _ | en
  · simp [dedupFirst, dedupGo]
  · simp [dedupFirst, dedupGo]
  · simp [dedupFirst, dedupGo]
  · rw [h1, h2] at hmal
    have hlt : ¬ st < en := by simpa using hmal
    simp [hlt, dedupFirst, dedupGo]

theorem C5_witness :
    (")read(book".data : Str) ≠ [] ∧
    regexSplit (strip (lower ")read(book".data)) =
      [strip (lower ")read(book".data)] ∧
    strip (lower ")read(book".data) ≠ [] ∧
    parenValid (strip (lower ")read(book".data)) = false ∧
    extract_sub_tasks ")read(book".data = [strip (lower ")read(book".data)] :=
  ⟨by decide, by decide, by decide, by decide,
   C5_malformed_fallback ")read(book".data (by decide) (by decide)
     (by decide) (by decide)⟩

/-- C4 amended: sub-task extraction locates the first opening
parenthesis and the first closing parenthesis anywhere in the segment
(not the first closing one after the opening one), and performs
parenthetical extraction only when that closing parenthesis comes
after the opening one; in that case the content between them is split
on plain commas into trimmed non-empty sub-task candidates, the text
before the opening parenthesis (or, when that is empty, the text after
the closing one) is appended as the base task when non-empty, and the
sequence is deduplicated in first-seen order. -/
theorem C4_paren_extraction (s : Str) (st en : Nat) (hs : s ≠ [])
    (hone : regexSplit (strip (lower s)) = [strip (lower s)])
    (ho : findChar '(' (strip (lower s)) = some st)
    (hc : findChar ')' (strip (lower s)) = some en)
    (hlt : st < en) :
    extract_sub_tasks s =
      dedupFirst
        (parenItems (strip (lower s)) st en ++
          (if baseOf (strip (lower s)) st en = [] then []
           else [baseOf (strip (lower s)) st en])) := by
  unfold extract_sub_tasks
  rw [if_neg hs, hone]
  simp only [List.foldl_cons, List.foldl_nil]
  unfold processPart
  rw [strip_idem (lower s)]
  have hne : strip (lower s) ≠ [] := findChar_some_ne_nil '(' _ st ho
  rw [if_neg hne, ho, hc]
  simp only [if_pos hlt, List.nil_append]
  by_cases hb : baseOf (strip (lower s)) st en = []
  · rw [hb]
    simp
  · rw [if_neg hb]
    by_cases hmem : baseOf (strip (lower s)) st en ∈ parenItems (strip (lower s)) st en
    · rw [if_neg (by simp [hmem])]
      unfold dedupFirst
      rw [dedupGo_append_mem _ _ _ (Or.inl hmem)]
    · rw [if_pos ⟨hb, hmem⟩]

/-- C4 counterexample: the segment ")a(b)" contains a valid parenthesis
pair — the first opening parenthesis (index 2) is followed by a later
closing one (index 4) — so under the claim extraction should yield the
parenthetical content "b" followed by the base ")a".  The code takes
the first closing parenthesis of the whole segment (index 0), the test
start < end fails, and the entire segment is kept as one task. -/
theorem C4_counterexample :
    hasValidPair ")a(b)".data = true ∧
    extract_sub_tasks ")a(b)".data = [")a(b)".data] ∧
    extract_sub_tasks ")a(b)".data ≠ ["b".data, ")a".data] := by
  refine ⟨by decide, by decide, by decide⟩

theorem C4_witness :
    ("read (book, article)".data : Str) ≠ [] ∧
    regexSplit (strip (lower "read (book, article)".data)) =
      [strip (lower "read (book, article)".data)] ∧
    findChar '(' (strip (lower "read (book, article)".data)) = some 5 ∧
    findChar ')' (strip (lower "read (book, article)".data)) = some 19 ∧
    5 < 19 ∧
    extract_sub_tasks "read (book, article)".data =
      dedupFirst
        (parenItems (strip (lower "read (book, article)".data)) 5 19 ++
          (if baseOf (strip (lower "read (book, article)".data)) 5 19 = []
           then []
           else [baseOf (strip (lower "read (book, article)".data)) 5 19])) ∧
    extract_sub_tasks "read (book, article)".data =
      ["book".data, "article".data, "read".data] :=
  ⟨by decide, by decide, by decide, by decide, by decide,
   C4_paren_extraction "read (book, article)".data 5 19 (by decide)
     (by decide) (by decide) (by decide) (by decide),
   by decide⟩

theorem task_key_good (tasks_str task : Str)
    (h : task ∈ split_top_level tasks_str) :
    lower (strip (lower task)) = strip (lower task) ∧
    strip (strip (lower task)) = strip (lower task) ∧
    strip (lower task) ≠ [] := by
  obtain ⟨hst, hne, -⟩ := mem_split_top_level tasks_str task h
  have h1 : strip (lower task) = lower task := by
    rw [strip_lower_comm, hst]
  refine ⟨?_, strip_idem _, ?_⟩
  · rw [h1, lower_idem]
  · rw [h1]
    exact fun hx => hne ((lower_eq_nil_iff task).mp hx)

theorem sub_key_good (task st : Str) (h : st ∈ extract_sub_tasks task) :
    lower st = st ∧ strip st = st ∧ st ≠ [] := by
  obtain ⟨hl, hs, hn⟩ := extract_sub_tasks_spec task st h
  exact ⟨lower_eq_self_of_mem st hl, hs, hn⟩

theorem processColumn_good (tms : List (Str × Entry) × List (Str × Entry))
    (cat tag pri : Str) (runs : List Str)
    (h1 : ∀ k ∈ keysA tms.1, lower k = k ∧ strip k = k ∧ k ≠ [])
    (h2 : ∀ k ∈ keysA tms.2, lower k = k ∧ strip k = k ∧ k ≠ []) :
    (∀ k ∈ keysA (processColumn tms cat tag pri runs).1,
        lower k = k ∧ strip k = k ∧ k ≠ []) ∧
    (∀ k ∈ keysA (processColumn tms cat tag pri runs).2,
        lower k = k ∧ strip k = k ∧ k ≠ []) := by
  unfold processColumn
  split
  · exact ⟨h1, h2⟩
  · apply foldl_preserve
      (P := fun tms : List (Str × Entry) × List (Str × Entry) =>
        (∀ k ∈ keysA tms.1, lower k = k ∧ strip k = k ∧ k ≠ []) ∧
        (∀ k ∈ keysA tms.2, lower k = k ∧ strip k = k ∧ k ≠ []))
    · exact ⟨h1, h2⟩
    · intro tms' task htask hP
      split
      · constructor
        · intro k hk
          rcases keysA_insertA tms'.1 (strip (lower task)) (cat, pri, tag) k hk
            with h | h
          · exact hP.1 k h
          · subst h
            exact task_key_good (concatRuns runs) task htask
        · intro k hk
          have hsub :
              ∀ k ∈ keysA ((extract_sub_tasks task).foldl
                (fun sm st =>
                  if st ≠ [] ∧ st ≠ strip (lower task) then
                    insertA sm st (cat, pri, tag)
                  else sm)
                tms'.2),
                lower k = k ∧ strip k = k ∧ k ≠ [] := by
            apply foldl_preserve
              (P := fun sm : List (Str × Entry) =>
                ∀ k ∈ keysA sm, lower k = k ∧ strip k = k ∧ k ≠ [])
            · exact hP.2
            · intro sm st hst hQ k hk
              split at hk
              · rcases keysA_insertA sm st (cat, pri, tag) k hk with h | h
                · exact hQ k h
                · rw [h]
                  exact sub_key_good task st hst
              · exact hQ k hk
          exact hsub k hk
      · exact hP

theorem processPage_good (tms : List (Str × Entry) × List (Str × Entry))
    (page : RichPage)
    (h1 : ∀ k ∈ keysA tms.1, lower k = k ∧ strip k = k ∧ k ≠ [])
    (h2 : ∀ k ∈ keysA tms.2, lower k = k ∧ strip k = k ∧ k ≠ []) :
    (∀ k ∈ keysA (processPage tms page).1,
        lower k = k ∧ strip k = k ∧ k ≠ []) ∧
    (∀ k ∈ keysA (processPage tms page).2,
        lower k = k ∧ strip k = k ∧ k ≠ []) := by
  unfold processPage
  obtain ⟨g1, g2⟩ := processColumn_good tms page.categoryName page.tag
    "High".data page.highRuns h1 h2
  obtain ⟨g3, g4⟩ := processColumn_good _ page.categoryName page.tag
    "Medium".data page.mediumRuns g1 g2
  exact processColumn_good _ page.categoryName page.tag
    "Low".data page.lowRuns g3 g4

/-- C6: after the mapping build every key present in the task mapping
or in the sub-task mapping is lower-cased, whitespace-trimmed and
non-empty; and inserting a duplicate key overwrites the previous entry,
so the most recently processed (category, priority, tag) tuple for a
key wins. -/
theorem C6_key_invariants (pages : List RichPage) :
    (∀ k ∈ keysA (buildMappings pages).1 ++ keysA (buildMappings pages).2,
        lower k = k ∧ strip k = k ∧ k ≠ []) ∧
    (∀ (m : List (Str × Entry)) (k : Str) (v : Entry),
        lookupA (insertA m k v) k = some v) := by
  constructor
  · have hP :
        (∀ k ∈ keysA (buildMappings pages).1,
          lower k = k ∧ strip k = k ∧ k ≠ []) ∧
        (∀ k ∈ keysA (buildMappings pages).2,
          lower k = k ∧ strip k = k ∧ k ≠ []) := by
      unfold buildMappings
      apply foldl_preserve
        (P := fun tms : List (Str × Entry) × List (Str × Entry) =>
          (∀ k ∈ keysA tms.1, lower k = k ∧ strip k = k ∧ k ≠ []) ∧
          (∀ k ∈ keysA tms.2, lower k = k ∧ strip k = k ∧ k ≠ []))
      · constructor <;> (intro k hk; simp [keysA] at hk)
      · intro tms page _ hPrev
        exact processPage_good tms page hPrev.1 hPrev.2
    intro k hk
    rcases List.mem_append.mp hk with h | h
    · exact hP.1 k h
    · exact hP.2 k h
  · intro m k v
    exact lookupA_insertA m k v

theorem C6_witness :
    "book".data ∈
      keysA (buildMappings pages0).1 ++ keysA (buildMappings pages0).2 ∧
    (lower "book".data = "book".data ∧ strip "book".data = "book".data ∧
      "book".data ≠ []) ∧
    lookupA (insertA [("x".data, eRead)] "x".data eWrite) "x".data =
      some eWrite :=
  ⟨by decide,
   (C6_key_invariants pages0).1 "book".data (by decide),
   (C6_key_invariants pages0).2 [("x".data, eRead)] "x".data eWrite⟩
